import Mathlib

/-!
Shallow embedding of two parts of the milli search core:

* the indexing persistence primitives in
  `src/milli/src/update/prefix_word_pairs/mod.rs`
  (the builder `PrefixWordPairsProximityDocids`, the merge-insert
  primitive `insert_into_database` and the bulk-load primitive
  `write_into_lmdb_database_without_merging`), and
* the first ranking-pipeline stage in
  `src/milli/src/search/criteria/initial.rs` (`Initial::new` and
  `Initial::next`).

The LMDB database is modelled as a byte-lexicographically sorted
association list from byte-string keys to stored values; a stored
value is either a well-formed serialized roaring bitmap (modelled by
the finite set of document ids it decodes to) or corrupt bytes that
fail to decode.  The heed operations used by the Rust code are
modelled on that list: `prefix_iter_mut` positioned at a key followed
by one `next()` becomes the first entry (in sorted order) whose key
starts with the probe key, `put` / `put_current` become sorted
insert-or-replace, and `append` on an empty database becomes appending
at the end of the list.
-/

namespace Milli

/-- A database key: a byte string.  Bytes are modelled as `Nat`. -/
abbrev Key : Type := List Nat

/-- A stored database value: either a well-formed serialized roaring
bitmap, identified with the set of document ids it decodes to, or
corrupt bytes that fail to decode (`code` distinguishes different
corrupt byte strings). -/
inductive Value where
  | bitmap (s : Finset Nat)
  | corrupt (code : Nat)
deriving DecidableEq

/-- Decoding a serialized value into a roaring bitmap; corrupt bytes
fail to decode. -/
def decodeCbo : Value → Option (Finset Nat)
  | .bitmap s => some s
  | .corrupt _ => none

/-- `merge_cbo_roaring_bitmaps` on the two-element slice
`[old_val, new_value]` used by `insert_into_database`: decode both
values, union the bitmaps, reencode.  Fails when either value fails to
decode. -/
def mergeCboPair (a b : Value) : Option Value :=
  match decodeCbo a, decodeCbo b with
  | some x, some y => some (.bitmap (x ∪ y))
  | _, _ => none

/-- Strict byte-lexicographic order on keys, the order LMDB keeps its
entries in. -/
def keyLt : List Nat → List Nat → Bool
  | [], [] => false
  | [], _ :: _ => true
  | _ :: _, [] => false
  | a :: as, b :: bs => if a < b then true else if a = b then keyLt as bs else false

/-- The errors surfaced by the code under consideration.
`indexingMergingKeys` is `InternalError::IndexingMergingKeys { process }`;
every other error (storage, resolution, distinct iteration) is carried
opaquely by `other`. -/
inductive MilliError where
  | indexingMergingKeys (process : String)
  | other (code : Nat)
deriving DecidableEq

/-- The database: a list of key/value entries, kept sorted by
`keyLt` on keys (the well-formedness invariant stated separately as
`sortedStore`). -/
abbrev Store : Type := List (Key × Value)

/-- The LMDB sortedness invariant: entry keys strictly increase in
byte-lexicographic order. -/
def sortedStore (store : Store) : Prop :=
  List.Pairwise (fun e₁ e₂ => keyLt e₁.1 e₂.1 = true) store

instance (store : Store) : Decidable (sortedStore store) :=
  List.instDecidablePairwise store

/-- Point read at an exact key (first entry whose key equals `k`). -/
def dbGet (store : Store) (k : Key) : Option Value :=
  (store.find? (fun e => e.1 = k)).map (·.2)

/-- `database.put(wtxn, k, v)` and `iter.put_current(k, v)` for an
iterator sitting on the entry with key `k`: sorted insert-or-replace. -/
def dbPut : Store → Key → Value → Store
  | [], k, v => [(k, v)]
  | (k₀, v₀) :: rest, k, v =>
    if k = k₀ then (k, v) :: rest
    else if keyLt k k₀ then (k, v) :: (k₀, v₀) :: rest
    else (k₀, v₀) :: dbPut rest k v

/-- `database.prefix_iter_mut(wtxn, k)` followed by one `iter.next()`:
the first entry, in sorted order, whose key starts with `k`. -/
def firstEntryStartingWith (store : Store) (k : Key) : Option (Key × Value) :=
  store.find? (fun e => k.isPrefixOf e.1)

/-- `insert_into_database` from `src/milli/src/update/prefix_word_pairs/mod.rs`:
position a mutable iterator at the target key; if its first entry has
exactly that key, CBO-merge the old and new values and write the merged
bytes back in place (using the caller-supplied key); otherwise put the
key/value pair as a fresh entry.  A merge failure aborts with the
internal `IndexingMergingKeys { process: "get-put-merge" }` error. -/
def insert_into_database (store : Store) (new_key : Key) (new_value : Value) :
    Except MilliError Store :=
  match firstEntryStartingWith store new_key with
  | some (key, old_val) =>
    if new_key = key then
      match mergeCboPair old_val new_value with
      | some val => .ok (dbPut store new_key val)
      | none => .error (.indexingMergingKeys "get-put-merge")
    else
      .ok (dbPut store new_key new_value)
  | none => .ok (dbPut store new_key new_value)

/-- `write_into_lmdb_database_without_merging` from
`src/milli/src/update/prefix_word_pairs/mod.rs`: when the destination
database is empty, append every entry of the (already sorted) stream
directly at the end in stream order; otherwise fall back to a
per-entry `put` with no merging. -/
def write_into_lmdb_database_without_merging (store : Store)
    (writer : List (Key × Value)) : Store :=
  if store.isEmpty then
    writer.foldl (fun acc e => acc ++ [e]) store
  else
    writer.foldl (fun acc e => dbPut acc e.1 e.2) store

/-! ### The `Initial` criterion stage (`src/milli/src/search/criteria/initial.rs`) -/

/-- A document-id set (`roaring::RoaringBitmap`), modelled as a finite
set of `Nat`. -/
abbrev Bitmap : Type := Finset Nat

/-- The query expression type (`crate::search::query_tree::Operation`).
Its structure is irrelevant to the `Initial` stage, which only hands it
to `resolve_query_tree`; it is kept opaque. -/
abbrev Operation : Type := Nat

/-- The shared word-distance cache threaded through the pipeline
(`params.wdcache`), kept opaque. -/
abbrev WdCache : Type := Nat

/-- The `Context` trait boundary, reduced to the single capability the
`Initial` stage uses: `resolve_query_tree(ctx, op, wdcache)` evaluates
an expression against the indexed data, returning the candidate bitmap
or an error, and mutating the cache in either case. -/
structure Context where
  resolveQueryTree : Operation → WdCache → Except MilliError Bitmap × WdCache

/-- The `Distinct` capability: `distinct(candidates, excluded)`
produces a lazy sequence of deduplicated representative document ids,
each step possibly failing; modelled as the list of step results. -/
structure DistinctCap where
  distinct : Bitmap → Bitmap → List (Except MilliError Nat)

/-- `CriterionResult` from `src/milli/src/search/criteria/mod.rs`
(shape given by the spec's data model): the sole data handed from one
pipeline stage to the next. -/
structure CriterionResult where
  query_tree : Option Operation
  candidates : Option Bitmap
  filtered_candidates : Option Bitmap
  bucket_candidates : Option Bitmap
deriving DecidableEq

/-- The `Initial` criterion stage.  The borrowed `ctx` is passed to
`next` explicitly rather than stored, so the structure holds the
remaining three fields of the Rust struct. -/
structure Initial where
  answer : Option CriterionResult
  exhaustive_number_hits : Bool
  distinct : Option DistinctCap

/-- The `CriterionResult` built by `Initial::new`: the supplied
`query_tree` and `filtered_candidates` with `candidates` and
`bucket_candidates` unset. -/
def initAnswer (query_tree : Option Operation)
    (filtered_candidates : Option Bitmap) : CriterionResult :=
  { query_tree := query_tree
    candidates := none
    filtered_candidates := filtered_candidates
    bucket_candidates := none }

/-- `Initial::new`: the pending answer holds the supplied `query_tree`
and `filtered_candidates` with `candidates` and `bucket_candidates`
unset. -/
def Initial.new (query_tree : Option Operation)
    (filtered_candidates : Option Bitmap) (exhaustive_number_hits : Bool)
    (distinct : Option DistinctCap) : Initial :=
  { answer := some (initAnswer query_tree filtered_candidates)
    exhaustive_number_hits := exhaustive_number_hits
    distinct := distinct }

/-- The loop `for c in distinct.distinct(candidates, empty) {
bucket_candidates.insert(c?); }`: drive the distinct sequence to
completion, inserting every yielded id into the accumulator bitmap,
aborting on the first error. -/
def driveDistinct : List (Except MilliError Nat) → Bitmap → Except MilliError Bitmap
  | [], acc => .ok acc
  | .ok c :: rest, acc => driveDistinct rest (insert c acc)
  | .error e :: _, _ => .error e

/-- `if let Some(ref filtered_candidates) = answer.filtered_candidates
{ candidates &= filtered_candidates }`: apply the externally supplied
filter restriction to the resolved candidates, when present. -/
def interFiltered (resolved : Bitmap) (filtered_candidates : Option Bitmap) : Bitmap :=
  match filtered_candidates with
  | some filtered_candidates => resolved ∩ filtered_candidates
  | none => resolved

/-- The `match &mut self.distinct` block of `Initial::next`: with a
distinct capability, drive it over the filtered candidates with an
empty already-seen set; without one, the bucket candidates are the
candidates themselves. -/
def computeBucket (distinct : Option DistinctCap) (candidates : Bitmap) :
    Except MilliError Bitmap :=
  match distinct with
  | some d => driveDistinct (d.distinct candidates ∅) ∅
  | none => .ok candidates

/-- The body of the closure mapped over the taken answer in
`Initial::next`, together with the cache it leaves behind: when
`exhaustive_number_hits` is set and a query tree is present, resolve
the whole tree, intersect with `filtered_candidates` when present,
precompute `bucket_candidates` through the distinct capability when
one was supplied, and store both sets into the answer; otherwise
return the answer unmodified. -/
def Initial.step (ctx : Context) (self : Initial) (answer : CriterionResult)
    (wdcache : WdCache) :
    Except MilliError CriterionResult × WdCache :=
  match self.exhaustive_number_hits, answer.query_tree with
  | true, some qt =>
    match ctx.resolveQueryTree qt wdcache with
    | (.error e, wdcache') => (.error e, wdcache')
    | (.ok resolved, wdcache') =>
      let candidates : Bitmap := interFiltered resolved answer.filtered_candidates
      match computeBucket self.distinct candidates with
      | .error e => (.error e, wdcache')
      | .ok bucket_candidates =>
        (.ok { answer with
            candidates := some candidates
            bucket_candidates := some bucket_candidates },
          wdcache')
  | _, _ => (.ok answer, wdcache)

/-- `Initial::next`: take the pending answer — `self.answer.take()`
leaves the stage exhausted from this point on whatever happens next —
then map `Initial.step` over it and transpose.  Returns the call
result together with the successor stage state and cache. -/
def Initial.next (ctx : Context) (self : Initial) (wdcache : WdCache) :
    Except MilliError (Option CriterionResult) × Initial × WdCache :=
  match self.answer with
  | none => (.ok none, { self with answer := none }, wdcache)
  | some answer =>
    let r := Initial.step ctx self answer wdcache
    (r.1.map some, { self with answer := none }, r.2)

/-- The result of the `n.succ`-th call to `next`, starting from stage
state `s` and cache `w`: iterate `next`, threading stage state and
cache. -/
def iterateNext (ctx : Context) : Nat → Initial × WdCache →
    Except MilliError (Option CriterionResult) × Initial × WdCache
  | 0, (s, w) => Initial.next ctx s w
  | n + 1, (s, w) => iterateNext ctx n (Initial.next ctx s w).2

/-! ### The prefix-pair index builder configuration
(`src/milli/src/update/prefix_word_pairs/mod.rs`) -/

/-- The configuration fields of `PrefixWordPairsProximityDocids`
(the transaction, index handle and compression settings play no role
in the clamping claims and are omitted). -/
structure PrefixWordPairsProximityDocids where
  max_proximity : Nat
  max_prefix_length : Nat
deriving DecidableEq

/-- `PrefixWordPairsProximityDocids::new`: default `max_proximity = 4`
and `max_prefix_length = 2`. -/
def PrefixWordPairsProximityDocids.new : PrefixWordPairsProximityDocids :=
  { max_proximity := 4, max_prefix_length := 2 }

/-- The `max_proximity` setter: the source stores `value.max(7)`. -/
def PrefixWordPairsProximityDocids.setMaxProximity
    (self : PrefixWordPairsProximityDocids) (value : Nat) :
    PrefixWordPairsProximityDocids :=
  { self with max_proximity := Nat.max value 7 }

/-! ### Derived operations used to state the claims -/

/-- A finite sequence of calls to `insert_into_database` under one key,
stopping at the first error. -/
def insertSeq (store : Store) (k : Key) : List Value → Except MilliError Store
  | [] => .ok store
  | v :: vs =>
    match insert_into_database store k v with
    | .ok s' => insertSeq s' k vs
    | .error e => .error e

/-- The union of a list of bitmaps. -/
def listUnion (l : List (Finset Nat)) : Finset Nat :=
  l.foldr (fun s acc => s ∪ acc) ∅

/-! ### Concrete collaborators used by the witnesses -/

/-- A context resolving every expression to the empty bitmap. -/
def ctxOkEmpty : Context := ⟨fun _ w => (.ok ∅, w)⟩

/-- A context resolving every expression to `{1, 2, 3}`. -/
def ctxOk123 : Context := ⟨fun _ w => (.ok ({1, 2, 3} : Bitmap), w)⟩

/-- A context whose resolution always fails. -/
def ctxFail : Context := ⟨fun _ w => (.error (.other 7), w)⟩

/-- Decidable equality of call results, used to evaluate the model on
concrete inputs. -/
def exceptDecEq {ε α : Type _} [DecidableEq ε] [DecidableEq α] :
    DecidableEq (Except ε α)
  | .ok a, .ok b =>
    if h : a = b then isTrue (congrArg Except.ok h)
    else isFalse (fun hc => h (Except.ok.inj hc))
  | .error a, .error b =>
    if h : a = b then isTrue (congrArg Except.error h)
    else isFalse (fun hc => h (Except.error.inj hc))
  | .ok _, .error _ => isFalse (fun hc => Except.noConfusion hc)
  | .error _, .ok _ => isFalse (fun hc => Except.noConfusion hc)

instance {ε α : Type _} [DecidableEq ε] [DecidableEq α] :
    DecidableEq (Except ε α) := exceptDecEq

/-! ### Order lemmas for byte-lexicographic keys -/

theorem keyLt_irrefl : ∀ k : Key, keyLt k k = false := by
  intro k
  induction k with
  | nil => rfl
  | cons a as ih => simp [keyLt, ih]

theorem keyLt_cons_iff (a b : Nat) (as bs : Key) :
    keyLt (a :: as) (b :: bs) = true ↔ a < b ∨ (a = b ∧ keyLt as bs = true) := by
  simp only [keyLt]
  split_ifs with h₁ h₂
  · simp [h₁]
  · simp [h₁, h₂]
  · simp [h₁, h₂]

theorem keyLt_trans : ∀ {a b c : Key},
    keyLt a b = true → keyLt b c = true → keyLt a c = true := by
  intro a
  induction a with
  | nil =>
    intro b c hab hbc
    cases b with
    | nil => simp [keyLt] at hab
    | cons y ys =>
      cases c with
      | nil => simp [keyLt] at hbc
      | cons z zs => simp [keyLt]
  | cons x xs ih =>
    intro b c hab hbc
    cases b with
    | nil => simp [keyLt] at hab
    | cons y ys =>
      cases c with
      | nil => simp [keyLt] at hbc
      | cons z zs =>
        rw [keyLt_cons_iff] at hab hbc ⊢
        rcases hab with h | ⟨rfl, h⟩ <;> rcases hbc with h' | ⟨rfl, h'⟩
        · exact Or.inl (Nat.lt_trans h h')
        · exact Or.inl h
        · exact Or.inl h'
        · exact Or.inr ⟨rfl, ih h h'⟩


theorem keyLt_total : ∀ a b : Key, a = b ∨ keyLt a b = true ∨ keyLt b a = true := by
  intro a
  induction a with
  | nil =>
    intro b
    cases b with
    | nil => exact Or.inl rfl
    | cons y ys => exact Or.inr (Or.inl (by simp [keyLt]))
  | cons x xs ih =>
    intro b
    cases b with
    | nil => exact Or.inr (Or.inr (by simp [keyLt]))
    | cons y ys =>
      rcases Nat.lt_trichotomy x y with h | h | h
      · exact Or.inr (Or.inl ((keyLt_cons_iff _ _ _ _).2 (Or.inl h)))
      · subst h
        rcases ih ys with h' | h' | h'
        · exact Or.inl (by rw [h'])
        · exact Or.inr (Or.inl ((keyLt_cons_iff _ _ _ _).2 (Or.inr ⟨rfl, h'⟩)))
        · exact Or.inr (Or.inr ((keyLt_cons_iff _ _ _ _).2 (Or.inr ⟨rfl, h'⟩)))
      · exact Or.inr (Or.inr ((keyLt_cons_iff _ _ _ _).2 (Or.inl h)))

theorem isPrefixOf_self : ∀ k : Key, k.isPrefixOf k = true := by
  intro k
  induction k with
  | nil => rfl
  | cons a as ih => simp [List.isPrefixOf, ih]

/-- A key is byte-lexicographically least among all keys it is a
prefix of: a key extension never sorts strictly before the key. -/
theorem not_keyLt_of_isPrefixOf : ∀ {p k : Key},
    p.isPrefixOf k = true → keyLt k p = false := by
  intro p
  induction p with
  | nil =>
    intro k _
    cases k <;> rfl
  | cons a as ih =>
    intro k hpre
    cases k with
    | nil => simp [List.isPrefixOf] at hpre
    | cons b bs =>
      simp only [List.isPrefixOf, Bool.and_eq_true, beq_iff_eq] at hpre
      obtain ⟨rfl, hpre⟩ := hpre
      simp [keyLt, ih hpre]

/-! ### Lemmas about point reads, point writes and the positioned scan -/

theorem dbGet_nil (k : Key) : dbGet [] k = none := rfl

theorem dbGet_cons (k₀ : Key) (v₀ : Value) (rest : Store) (k : Key) :
    dbGet ((k₀, v₀) :: rest) k = if k₀ = k then some v₀ else dbGet rest k := by
  by_cases h : k₀ = k
  · rw [if_pos h]
    simp only [dbGet]
    rw [List.find?_cons_of_pos _ (by simp [h])]
    rfl
  · rw [if_neg h]
    simp only [dbGet]
    rw [List.find?_cons_of_neg _ (by simp [h])]

theorem firstEntry_nil (k : Key) : firstEntryStartingWith [] k = none := rfl

theorem firstEntry_cons (k₀ : Key) (v₀ : Value) (rest : Store) (k : Key) :
    firstEntryStartingWith ((k₀, v₀) :: rest) k =
      if k.isPrefixOf k₀ = true then some (k₀, v₀)
      else firstEntryStartingWith rest k := by
  by_cases h : k.isPrefixOf k₀ = true
  · rw [if_pos h]
    simp only [firstEntryStartingWith]
    rw [List.find?_cons_of_pos _ (by simpa using h)]
  · rw [if_neg h]
    simp only [firstEntryStartingWith]
    rw [List.find?_cons_of_neg _ (by simpa using h)]

theorem dbGet_dbPut_self : ∀ (store : Store) (k : Key) (v : Value),
    dbGet (dbPut store k v) k = some v := by
  intro store k v
  induction store with
  | nil => simp [dbPut, dbGet_cons]
  | cons e rest ih =>
    obtain ⟨k₀, v₀⟩ := e
    by_cases h₁ : k = k₀
    · simp only [dbPut, if_pos h₁]
      rw [dbGet_cons, if_pos rfl]
    · by_cases h₂ : keyLt k k₀ = true
      · simp only [dbPut, if_neg h₁, if_pos h₂]
        rw [dbGet_cons, if_pos rfl]
      · simp only [dbPut, if_neg h₁, if_neg h₂]
        rw [dbGet_cons, if_neg (Ne.symm h₁)]
        exact ih

theorem dbGet_dbPut_ne : ∀ (store : Store) (k k' : Key) (v : Value), k' ≠ k →
    dbGet (dbPut store k v) k' = dbGet store k' := by
  intro store k k' v hne
  induction store with
  | nil =>
    simp only [dbPut]
    rw [dbGet_cons, if_neg (Ne.symm hne)]
  | cons e rest ih =>
    obtain ⟨k₀, v₀⟩ := e
    by_cases h₁ : k = k₀
    · subst h₁
      simp only [dbPut, eq_self_iff_true, if_true]
      rw [dbGet_cons, dbGet_cons, if_neg (Ne.symm hne), if_neg (Ne.symm hne)]
    · by_cases h₂ : keyLt k k₀ = true
      · simp only [dbPut, if_neg h₁, if_pos h₂]
        rw [dbGet_cons, if_neg (Ne.symm hne)]
      · simp only [dbPut, if_neg h₁, if_neg h₂]
        rw [dbGet_cons, dbGet_cons]
        by_cases h₃ : k₀ = k'
        · rw [if_pos h₃, if_pos h₃]
        · rw [if_neg h₃, if_neg h₃]
          exact ih

theorem mem_dbPut : ∀ {store : Store} {k : Key} {v : Value} {e : Key × Value},
    e ∈ dbPut store k v → e = (k, v) ∨ e ∈ store := by
  intro store
  induction store with
  | nil =>
    intro k v e he
    simp [dbPut] at he
    exact Or.inl he
  | cons e₀ rest ih =>
    intro k v e he
    obtain ⟨k₀, v₀⟩ := e₀
    by_cases h₁ : k = k₀
    · simp only [dbPut, if_pos h₁, List.mem_cons] at he
      rcases he with h | h
      · exact Or.inl h
      · exact Or.inr (List.mem_cons_of_mem _ h)
    · by_cases h₂ : keyLt k k₀ = true
      · simp only [dbPut, if_neg h₁, if_pos h₂, List.mem_cons] at he
        rcases he with h | h | h
        · exact Or.inl h
        · exact Or.inr (by simp [h])
        · exact Or.inr (List.mem_cons_of_mem _ h)
      · simp only [dbPut, if_neg h₁, if_neg h₂, List.mem_cons] at he
        rcases he with h | h
        · exact Or.inr (by simp [h])
        · rcases ih h with h' | h'
          · exact Or.inl h'
          · exact Or.inr (List.mem_cons_of_mem _ h')

theorem sortedStore_dbPut {store : Store} (k : Key) (v : Value)
    (hs : sortedStore store) : sortedStore (dbPut store k v) := by
  induction store with
  | nil => simp [dbPut, sortedStore]
  | cons e₀ rest ih =>
    obtain ⟨k₀, v₀⟩ := e₀
    rw [sortedStore, List.pairwise_cons] at hs
    obtain ⟨hhead, hrest⟩ := hs
    by_cases h₁ : k = k₀
    · subst h₁
      rw [dbPut, if_pos rfl, sortedStore, List.pairwise_cons]
      exact ⟨hhead, hrest⟩
    · by_cases h₂ : keyLt k k₀ = true
      · rw [dbPut, if_neg h₁, if_pos h₂, sortedStore, List.pairwise_cons]
        constructor
        · intro e he
          rcases List.mem_cons.1 he with h | h
          · subst h; exact h₂
          · exact keyLt_trans h₂ (hhead e h)
        · exact List.pairwise_cons.2 ⟨hhead, hrest⟩
      · rcases keyLt_total k k₀ with h | h | h
        · exact absurd h h₁
        · exact absurd h h₂
        · rw [dbPut, if_neg h₁, if_neg h₂, sortedStore, List.pairwise_cons]
          constructor
          · intro e he
            rcases mem_dbPut he with h' | h'
            · subst h'; exact h
            · exact hhead e h'
          · exact ih hrest

theorem dbGet_some_mem {store : Store} {k : Key} {v : Value}
    (h : dbGet store k = some v) : (k, v) ∈ store := by
  induction store with
  | nil => simp [dbGet_nil] at h
  | cons e₀ rest ih =>
    obtain ⟨k₀, v₀⟩ := e₀
    rw [dbGet_cons] at h
    by_cases h₁ : k₀ = k
    · subst h₁
      rw [if_pos rfl] at h
      injection h with h
      subst h
      exact List.mem_cons_self _ _
    · rw [if_neg h₁] at h
      exact List.mem_cons_of_mem _ (ih h)

/-- On a sorted store that holds the probe key, the positioned scan's
first entry is exactly the entry at the probe key: any key extending
`k` sorts at or after `k` itself. -/
theorem firstEntry_of_get_some {store : Store} {k : Key} {v : Value}
    (hs : sortedStore store) (h : dbGet store k = some v) :
    firstEntryStartingWith store k = some (k, v) := by
  induction store with
  | nil => simp [dbGet_nil] at h
  | cons e₀ rest ih =>
    obtain ⟨k₀, v₀⟩ := e₀
    rw [sortedStore, List.pairwise_cons] at hs
    obtain ⟨hhead, hrest⟩ := hs
    rw [dbGet_cons] at h
    by_cases h₁ : k₀ = k
    · subst h₁
      rw [if_pos rfl] at h
      injection h with h
      subst h
      rw [firstEntry_cons, if_pos (isPrefixOf_self k₀)]
    · rw [if_neg h₁] at h
      have hk : keyLt k₀ k = true := hhead (k, v) (dbGet_some_mem h)
      have hnp : ¬ k.isPrefixOf k₀ = true := by
        intro hc
        rw [not_keyLt_of_isPrefixOf hc] at hk
        exact Bool.false_ne_true hk
      rw [firstEntry_cons, if_neg hnp]
      exact ih hrest h

/-- If the positioned scan's first entry carries exactly the probe
key, a point read at that key finds it. -/
theorem firstEntry_self_get {store : Store} {k : Key} {v : Value}
    (h : firstEntryStartingWith store k = some (k, v)) : dbGet store k = some v := by
  induction store with
  | nil => simp [firstEntry_nil] at h
  | cons e₀ rest ih =>
    obtain ⟨k₀, v₀⟩ := e₀
    rw [firstEntry_cons] at h
    by_cases h₁ : k.isPrefixOf k₀ = true
    · rw [if_pos h₁] at h
      simp only [Option.some.injEq, Prod.mk.injEq] at h
      obtain ⟨rfl, rfl⟩ := h
      rw [dbGet_cons, if_pos rfl]
    · rw [if_neg h₁] at h
      have hne : k₀ ≠ k := by
        rintro rfl
        exact h₁ (isPrefixOf_self k₀)
      rw [dbGet_cons, if_neg hne]
      exact ih h

/-! ### Characterizations of the merge-insert primitive -/

/-- When no entry carries exactly the target key, `insert_into_database`
puts the key/value pair as a fresh entry (even when entries exist whose
keys have the target key as a strict prefix). -/
theorem insert_eq_put_of_absent {store : Store} {k : Key} (v : Value)
    (h : dbGet store k = none) :
    insert_into_database store k v = .ok (dbPut store k v) := by
  rw [insert_into_database]
  cases hfe : firstEntryStartingWith store k with
  | none => rfl
  | some e =>
    obtain ⟨key, old⟩ := e
    by_cases hk : k = key
    · subst hk
      rw [firstEntry_self_get hfe] at h
      cases h
    · simp [hk]

/-- When an entry carries exactly the target key in a sorted store and
the CBO merge of the old and new values succeeds, `insert_into_database`
writes the merged value back at that key. -/
theorem insert_eq_put_of_present {store : Store} {k : Key} {old m : Value}
    (v : Value) (hs : sortedStore store) (hget : dbGet store k = some old)
    (hm : mergeCboPair old v = some m) :
    insert_into_database store k v = .ok (dbPut store k m) := by
  rw [insert_into_database, firstEntry_of_get_some hs hget]
  simp [hm]

/-- When an entry carries exactly the target key but the CBO merge
fails, `insert_into_database` aborts with the internal merging-keys
error. -/
theorem insert_error_of_merge_none {store : Store} {k : Key} {old : Value}
    (v : Value) (hs : sortedStore store) (hget : dbGet store k = some old)
    (hm : mergeCboPair old v = none) :
    insert_into_database store k v = .error (.indexingMergingKeys "get-put-merge") := by
  rw [insert_into_database, firstEntry_of_get_some hs hget]
  simp [hm]

theorem insert_ok_sorted {store s' : Store} {k : Key} {v : Value}
    (hs : sortedStore store) (h : insert_into_database store k v = .ok s') :
    sortedStore s' := by
  cases hget : dbGet store k with
  | none =>
    rw [insert_eq_put_of_absent v hget] at h
    injection h with h
    exact h ▸ sortedStore_dbPut k v hs
  | some old =>
    cases hm : mergeCboPair old v with
    | none =>
      rw [insert_error_of_merge_none v hs hget hm] at h
      cases h
    | some m =>
      rw [insert_eq_put_of_present v hs hget hm] at h
      injection h with h
      exact h ▸ sortedStore_dbPut k m hs

theorem insert_ok_frame {store s' : Store} {k : Key} {v : Value}
    (hs : sortedStore store) (h : insert_into_database store k v = .ok s') :
    ∀ k', k' ≠ k → dbGet s' k' = dbGet store k' := by
  cases hget : dbGet store k with
  | none =>
    rw [insert_eq_put_of_absent v hget] at h
    injection h with h
    intro k' hk'
    rw [← h]
    exact dbGet_dbPut_ne store k k' v hk'
  | some old =>
    cases hm : mergeCboPair old v with
    | none =>
      rw [insert_error_of_merge_none v hs hget hm] at h
      cases h
    | some m =>
      rw [insert_eq_put_of_present v hs hget hm] at h
      injection h with h
      intro k' hk'
      rw [← h]
      exact dbGet_dbPut_ne store k k' m hk'

/-! ### Lemmas about insertion sequences and bitmap-list unions -/

theorem mem_listUnion {x : Nat} : ∀ {l : List (Finset Nat)},
    x ∈ listUnion l ↔ ∃ t ∈ l, x ∈ t := by
  intro l
  induction l with
  | nil => simp [listUnion]
  | cons t rest ih =>
    simp only [listUnion, List.foldr_cons, Finset.mem_union, List.mem_cons]
    rw [show List.foldr (fun s acc => s ∪ acc) ∅ rest = listUnion rest from rfl]
    constructor
    · rintro (h | h)
      · exact ⟨t, Or.inl rfl, h⟩
      · obtain ⟨u, hu, hx⟩ := ih.1 h
        exact ⟨u, Or.inr hu, hx⟩
    · rintro ⟨u, hu | hu, hx⟩
      · exact Or.inl (hu ▸ hx)
      · exact Or.inr (ih.2 ⟨u, hu, hx⟩)

theorem listUnion_perm {l l' : List (Finset Nat)} (h : l.Perm l') :
    listUnion l = listUnion l' := by
  ext x
  rw [mem_listUnion, mem_listUnion]
  constructor
  · rintro ⟨t, ht, hx⟩
    exact ⟨t, h.mem_iff.1 ht, hx⟩
  · rintro ⟨t, ht, hx⟩
    exact ⟨t, h.mem_iff.2 ht, hx⟩

/-- Inserting bitmaps `sets` one at a time under a key that currently
stores `acc` succeeds and leaves the union of `acc` and all of `sets`
at that key, touching no other key. -/
theorem insertSeq_bitmap_acc : ∀ (sets : List (Finset Nat)) (store : Store)
    (k : Key) (acc : Finset Nat), sortedStore store →
    dbGet store k = some (.bitmap acc) →
    ∃ s', insertSeq store k (sets.map Value.bitmap) = .ok s' ∧
      sortedStore s' ∧ dbGet s' k = some (.bitmap (acc ∪ listUnion sets)) ∧
      ∀ k', k' ≠ k → dbGet s' k' = dbGet store k' := by
  intro sets
  induction sets with
  | nil =>
    intro store k acc hs hget
    refine ⟨store, rfl, hs, ?_, fun _ _ => rfl⟩
    rw [hget]
    simp [listUnion]
  | cons t rest ih =>
    intro store k acc hs hget
    have hm : mergeCboPair (.bitmap acc) (.bitmap t) = some (.bitmap (acc ∪ t)) := rfl
    have hins := insert_eq_put_of_present (Value.bitmap t) hs hget hm
    have hs₁ : sortedStore (dbPut store k (.bitmap (acc ∪ t))) :=
      sortedStore_dbPut k _ hs
    have hget₁ : dbGet (dbPut store k (.bitmap (acc ∪ t))) k =
        some (.bitmap (acc ∪ t)) := dbGet_dbPut_self store k _
    obtain ⟨s', hrun, hsort', hget', hframe'⟩ := ih _ k (acc ∪ t) hs₁ hget₁
    refine ⟨s', ?_, hsort', ?_, ?_⟩
    · rw [List.map_cons, insertSeq, hins]
      exact hrun
    · rw [hget']
      have : (acc ∪ t) ∪ listUnion rest = acc ∪ listUnion (t :: rest) := by
        rw [show listUnion (t :: rest) = t ∪ listUnion rest from rfl,
          Finset.union_assoc]
      rw [this]
    · intro k' hk'
      rw [hframe' k' hk', dbGet_dbPut_ne store k k' _ hk']

/-! ### Lemmas about the bulk-load primitive -/

theorem foldl_append_eq : ∀ (l : List (Key × Value)) (s : Store),
    l.foldl (fun acc e => acc ++ [e]) s = s ++ l := by
  intro l
  induction l with
  | nil => intro s; simp
  | cons e rest ih =>
    intro s
    rw [List.foldl_cons, ih]
    simp

theorem dbGet_foldl_put : ∀ (stream : List (Key × Value)) (store : Store) (k : Key),
    (stream.map Prod.fst).Nodup →
    dbGet (stream.foldl (fun acc e => dbPut acc e.1 e.2) store) k =
      match stream.find? (fun e => e.1 = k) with
      | some e => some e.2
      | none => dbGet store k := by
  intro stream
  induction stream with
  | nil => intro store k _; rfl
  | cons e rest ih =>
    intro store k hnd
    obtain ⟨k₀, v₀⟩ := e
    rw [List.map_cons, List.nodup_cons] at hnd
    obtain ⟨hk₀, hnd⟩ := hnd
    rw [List.foldl_cons, ih _ k hnd]
    by_cases h : k₀ = k
    · subst h
      rw [List.find?_cons_of_pos _ (by simp)]
      have hnone : rest.find? (fun e => e.1 = k₀) = none := by
        rw [List.find?_eq_none]
        intro e he heq
        simp only [decide_eq_true_eq] at heq
        apply hk₀
        exact List.mem_map.2 ⟨e, he, heq⟩
      rw [hnone]
      exact dbGet_dbPut_self store k₀ v₀
    · rw [List.find?_cons_of_neg _ (by simp [h])]
      cases hf : rest.find? (fun e => e.1 = k) with
      | some e' => rfl
      | none => exact dbGet_dbPut_ne store k₀ k v₀ (Ne.symm h)

/-- On stores whose keys are duplicate-free, a point read finding a
value is the same as the entry being in the store. -/
theorem dbGet_some_iff_mem {store : Store} {k : Key} {v : Value}
    (hnd : (store.map Prod.fst).Nodup) :
    dbGet store k = some v ↔ (k, v) ∈ store := by
  constructor
  · exact dbGet_some_mem
  · intro hmem
    induction store with
    | nil => cases hmem
    | cons e₀ rest ih =>
      obtain ⟨k₀, v₀⟩ := e₀
      rw [List.map_cons, List.nodup_cons] at hnd
      obtain ⟨hk₀, hnd'⟩ := hnd
      rcases List.mem_cons.1 hmem with h | h
      · injection h with h₁ h₂
        subst h₁
        subst h₂
        rw [dbGet_cons, if_pos rfl]
      · have hne : k₀ ≠ k := by
          rintro rfl
          apply hk₀
          exact List.mem_map.2 ⟨(k₀, v), h, rfl⟩
        rw [dbGet_cons, if_neg hne]
        exact ih hnd' h

/-- Strictly ascending keys are duplicate-free. -/
theorem sorted_keys_nodup {store : Store} (hs : sortedStore store) :
    (store.map Prod.fst).Nodup := by
  rw [List.Nodup, List.pairwise_map]
  refine hs.imp ?_
  intro a b hab heq
  rw [heq, keyLt_irrefl] at hab
  exact Bool.false_ne_true hab

/-! ### Lemmas about the distinct-driving loop -/

theorem driveDistinct_map_ok : ∀ (ids : List Nat) (acc : Bitmap),
    driveDistinct (ids.map Except.ok) acc = .ok (ids.foldl (fun a c => insert c a) acc) := by
  intro ids
  induction ids with
  | nil => intro acc; rfl
  | cons c rest ih =>
    intro acc
    rw [List.map_cons, driveDistinct, List.foldl_cons]
    exact ih _

theorem mem_foldl_insert {x : Nat} : ∀ (ids : List Nat) (acc : Bitmap),
    x ∈ ids.foldl (fun a c => insert c a) acc ↔ x ∈ acc ∨ x ∈ ids := by
  intro ids
  induction ids with
  | nil => intro acc; simp
  | cons c rest ih =>
    intro acc
    rw [List.foldl_cons, ih]
    simp only [Finset.mem_insert, List.mem_cons]
    tauto

theorem foldl_insert_eq_toFinset (ids : List Nat) :
    ids.foldl (fun a c => insert c a) ∅ = ids.toFinset := by
  ext x
  rw [mem_foldl_insert]
  simp

/-! ### Lemmas about the Initial stage's state machine -/

theorem next_state_answer_none (ctx : Context) (s : Initial) (w : WdCache) :
    (Initial.next ctx s w).2.1.answer = none := by
  obtain ⟨ans, ex, d⟩ := s
  cases ans <;> rfl

theorem next_exhausted (ctx : Context) (s : Initial) (w : WdCache)
    (h : s.answer = none) :
    Initial.next ctx s w = (.ok none, { s with answer := none }, w) := by
  rw [Initial.next, h]

theorem iterateNext_exhausted (ctx : Context) : ∀ (n : Nat)
    (p : Initial × WdCache), p.1.answer = none →
    (iterateNext ctx n p).1 = .ok none := by
  intro n
  induction n with
  | zero =>
    intro p h
    obtain ⟨s, w⟩ := p
    rw [iterateNext, next_exhausted ctx s w h]
  | succ m ih =>
    intro p h
    obtain ⟨s, w⟩ := p
    rw [iterateNext]
    exact ih _ (next_state_answer_none ctx s w)

/-- On a stage whose answer is pending, `next` is `step` transposed. -/
theorem next_fst (ctx : Context) (s : Initial) (w : WdCache)
    (answer : CriterionResult) (h : s.answer = some answer) :
    (Initial.next ctx s w).1 = (Initial.step ctx s answer w).1.map some := by
  rw [Initial.next, h]

theorem step_of_not_exhaustive (ctx : Context) (self : Initial)
    (answer : CriterionResult) (w : WdCache)
    (h : self.exhaustive_number_hits = false ∨ answer.query_tree = none) :
    Initial.step ctx self answer w = (.ok answer, w) := by
  obtain ⟨ans, ex, d⟩ := self
  obtain ⟨aqt, ac, afc, abc⟩ := answer
  rcases h with h | h
  · have hex : ex = false := h
    subst hex
    rfl
  · have hqt : aqt = none := h
    subst hqt
    cases ex <;> rfl

theorem step_exhaustive_eq (ctx : Context) (self : Initial)
    (answer : CriterionResult) (w w' : WdCache) (qt : Operation)
    (resolved : Bitmap)
    (hex : self.exhaustive_number_hits = true)
    (hqt : answer.query_tree = some qt)
    (hres : ctx.resolveQueryTree qt w = (.ok resolved, w')) :
    Initial.step ctx self answer w =
      (match computeBucket self.distinct (interFiltered resolved answer.filtered_candidates) with
       | .error e => (.error e, w')
       | .ok bucket_candidates =>
         (.ok { answer with
             candidates := some (interFiltered resolved answer.filtered_candidates)
             bucket_candidates := some bucket_candidates },
           w')) := by
  obtain ⟨ans, ex, d⟩ := self
  obtain ⟨aqt, ac, afc, abc⟩ := answer
  have hex' : ex = true := hex
  subst hex'
  have hqt' : aqt = some qt := hqt
  subst hqt'
  simp only [Initial.step, hres]

theorem step_exhaustive_error (ctx : Context) (self : Initial)
    (answer : CriterionResult) (w w' : WdCache) (qt : Operation) (e : MilliError)
    (hex : self.exhaustive_number_hits = true)
    (hqt : answer.query_tree = some qt)
    (hres : ctx.resolveQueryTree qt w = (.error e, w')) :
    Initial.step ctx self answer w = (.error e, w') := by
  obtain ⟨ans, ex, d⟩ := self
  obtain ⟨aqt, ac, afc, abc⟩ := answer
  have hex' : ex = true := hex
  subst hex'
  have hqt' : aqt = some qt := hqt
  subst hqt'
  simp only [Initial.step, hres]

theorem step_ok_frame (ctx : Context) (self : Initial) (answer : CriterionResult)
    (w : WdCache) (a : CriterionResult)
    (h : (Initial.step ctx self answer w).1 = .ok a) :
    a.query_tree = answer.query_tree ∧
    a.filtered_candidates = answer.filtered_candidates := by
  cases hex : self.exhaustive_number_hits with
  | false =>
    rw [step_of_not_exhaustive ctx self answer w (Or.inl hex)] at h
    injection h with h
    subst h
    exact ⟨rfl, rfl⟩
  | true =>
    cases hqt : answer.query_tree with
    | none =>
      rw [step_of_not_exhaustive ctx self answer w (Or.inr hqt)] at h
      injection h with h
      subst h
      exact ⟨hqt, rfl⟩
    | some qt =>
      cases hres : ctx.resolveQueryTree qt w with
      | mk res w' =>
        cases res with
        | error e =>
          rw [step_exhaustive_error ctx self answer w w' qt e hex hqt hres] at h
          exact Except.noConfusion h
        | ok resolved =>
          rw [step_exhaustive_eq ctx self answer w w' qt resolved hex hqt hres] at h
          cases hb : computeBucket self.distinct
              (interFiltered resolved answer.filtered_candidates) with
          | error e =>
            rw [hb] at h
            exact Except.noConfusion h
          | ok b =>
            rw [hb] at h
            injection h with h
            subst h
            exact ⟨hqt, rfl⟩

/-! ### The claims -/

/-- C2: for every `Initial` stage value and every sequence of calls to
`next`, the first call returns `Some(CriterionResult)` when it does not
fail, and every subsequent call returns `None`, regardless of the
exhaustiveness flag, the query expression, the filtered candidates and
the distinct capability: the stage fires exactly once and thereafter
signals exhaustion. -/
theorem claim_initial_single_fire (ctx : Context) (query_tree : Option Operation)
    (filtered_candidates : Option Bitmap) (ex : Bool) (d : Option DistinctCap)
    (w : WdCache) :
    (∀ r, (Initial.next ctx (Initial.new query_tree filtered_candidates ex d) w).1 =
        .ok r → r.isSome = true) ∧
    (∀ n, 1 ≤ n →
      (iterateNext ctx n (Initial.new query_tree filtered_candidates ex d, w)).1 =
        .ok none) := by
  constructor
  · intro r hr
    rw [next_fst ctx _ w (initAnswer query_tree filtered_candidates) rfl] at hr
    cases hstep : (Initial.step ctx (Initial.new query_tree filtered_candidates ex d)
        (initAnswer query_tree filtered_candidates) w).1 with
    | error e =>
      rw [hstep] at hr
      exact Except.noConfusion hr
    | ok a =>
      rw [hstep] at hr
      injection hr with hr
      rw [← hr]
      rfl
  · intro n hn
    cases n with
    | zero => exact absurd hn (by omega)
    | succ m =>
      rw [iterateNext]
      exact iterateNext_exhausted ctx m _ (next_state_answer_none ctx _ w)

theorem claim_initial_single_fire_witness :
    ((Initial.next ctxOkEmpty (Initial.new (some 0) none true none) 0).1 =
      .ok (some { query_tree := some 0, candidates := some ∅,
                  filtered_candidates := none, bucket_candidates := some ∅ })) ∧
    (some { query_tree := some 0, candidates := some ∅,
            filtered_candidates := none,
            bucket_candidates := some ∅ } : Option CriterionResult).isSome = true ∧
    (iterateNext ctxOkEmpty 1 (Initial.new (some 0) none true none, 0)).1 = .ok none :=
  ⟨rfl,
   (claim_initial_single_fire ctxOkEmpty (some 0) none true none 0).1 _ rfl,
   (claim_initial_single_fire ctxOkEmpty (some 0) none true none 0).2 1 (by decide)⟩

/-- C7: on the first `next` call, when `exhaustive_number_hits` is
false or no query expression is present, the returned `CriterionResult`
is exactly the one built at construction: `query_tree` and
`filtered_candidates` are the constructor arguments and both
`candidates` and `bucket_candidates` are unset. -/
theorem claim_initial_lazy_passthrough (ctx : Context)
    (query_tree : Option Operation) (filtered_candidates : Option Bitmap)
    (ex : Bool) (d : Option DistinctCap) (w : WdCache)
    (h : ex = false ∨ query_tree = none) :
    (Initial.next ctx (Initial.new query_tree filtered_candidates ex d) w).1 =
      .ok (some { query_tree := query_tree, candidates := none,
                  filtered_candidates := filtered_candidates,
                  bucket_candidates := none }) := by
  rw [next_fst ctx _ w (initAnswer query_tree filtered_candidates) rfl,
    step_of_not_exhaustive ctx _ _ w h]
  rfl

theorem claim_initial_lazy_passthrough_witness :
    (Initial.next ctxOk123
        (Initial.new (some 5) (some {8, 9}) false (some ⟨fun _ _ => []⟩)) 0).1 =
      .ok (some { query_tree := some 5, candidates := none,
                  filtered_candidates := some {8, 9},
                  bucket_candidates := none }) :=
  claim_initial_lazy_passthrough ctxOk123 (some 5) (some {8, 9}) false
    (some ⟨fun _ _ => []⟩) 0 (Or.inl rfl)

/-- C9: if the first `next` call returns an error, the pending answer
has nevertheless been consumed: every call that returns `Ok` returns
`Ok(None)`, so the stage never produces a `CriterionResult` in its
lifetime. -/
theorem claim_initial_error_exhausts (ctx : Context)
    (query_tree : Option Operation) (filtered_candidates : Option Bitmap)
    (ex : Bool) (d : Option DistinctCap) (w : WdCache) (e : MilliError)
    (herr : (Initial.next ctx (Initial.new query_tree filtered_candidates ex d) w).1 =
      .error e) :
    ∀ n r, (iterateNext ctx n (Initial.new query_tree filtered_candidates ex d, w)).1 =
      .ok r → r = none := by
  intro n r h
  cases n with
  | zero =>
    rw [iterateNext, herr] at h
    exact Except.noConfusion h
  | succ m =>
    rw [iterateNext,
      iterateNext_exhausted ctx m _ (next_state_answer_none ctx _ w)] at h
    injection h with h
    exact h.symm

theorem claim_initial_error_exhausts_witness :
    (Initial.next ctxFail (Initial.new (some 0) none true none) 0).1 =
      .error (.other 7) ∧
    (iterateNext ctxFail 1 (Initial.new (some 0) none true none, 0)).1 = .ok none ∧
    (none : Option CriterionResult) = none :=
  ⟨rfl, rfl,
   claim_initial_error_exhausts ctxFail (some 0) none true none 0 (.other 7)
     rfl 1 none rfl⟩

/-- C10: every successful `next` call returning `Some(result)` leaves
`query_tree` and `filtered_candidates` exactly as supplied at
construction, in every configuration: `next` only ever writes the
`candidates` and `bucket_candidates` fields. -/
theorem claim_initial_frame (ctx : Context) (query_tree : Option Operation)
    (filtered_candidates : Option Bitmap) (ex : Bool) (d : Option DistinctCap)
    (w : WdCache) (r : CriterionResult)
    (h : (Initial.next ctx (Initial.new query_tree filtered_candidates ex d) w).1 =
      .ok (some r)) :
    r.query_tree = query_tree ∧ r.filtered_candidates = filtered_candidates := by
  rw [next_fst ctx _ w (initAnswer query_tree filtered_candidates) rfl] at h
  cases hstep : (Initial.step ctx (Initial.new query_tree filtered_candidates ex d)
      (initAnswer query_tree filtered_candidates) w).1 with
  | error e =>
    rw [hstep] at h
    exact Except.noConfusion h
  | ok a =>
    rw [hstep] at h
    injection h with h
    injection h with h
    subst h
    exact step_ok_frame ctx _ _ w _ hstep

theorem claim_initial_frame_witness :
    (Initial.next ctxOk123 (Initial.new (some 4) (some {2, 5}) true none) 0).1 =
      .ok (some { query_tree := some 4, candidates := some ({2} : Bitmap),
                  filtered_candidates := some {2, 5},
                  bucket_candidates := some ({2} : Bitmap) }) ∧
    ({ query_tree := some 4, candidates := some ({2} : Bitmap),
       filtered_candidates := some {2, 5},
       bucket_candidates := some ({2} : Bitmap) } : CriterionResult).query_tree =
      some 4 ∧
    ({ query_tree := some 4, candidates := some ({2} : Bitmap),
       filtered_candidates := some {2, 5},
       bucket_candidates := some ({2} : Bitmap) } : CriterionResult).filtered_candidates =
      some {2, 5} :=
  ⟨by decide,
   (claim_initial_frame ctxOk123 (some 4) (some {2, 5}) true none 0 _ (by decide)).1,
   (claim_initial_frame ctxOk123 (some 4) (some {2, 5}) true none 0 _ (by decide)).2⟩

/-- C1: on the first `next` call with `exhaustive_number_hits` set and
a query expression present, the returned result's `candidates` is the
resolved expression intersected with `filtered_candidates` when the
latter is present (hence a subset of their intersection), and its
`bucket_candidates` is the set of ids yielded by driving the distinct
capability to completion over the candidates with an empty already-seen
set when one was supplied, and the candidates bitmap exactly
otherwise. -/
theorem claim_initial_exhaustive_candidates (ctx : Context) (qt : Operation)
    (fc : Option Bitmap) (d : Option DistinctCap) (w w' : WdCache)
    (resolved : Bitmap) (r : CriterionResult)
    (hres : ctx.resolveQueryTree qt w = (.ok resolved, w'))
    (h : (Initial.next ctx (Initial.new (some qt) fc true d) w).1 = .ok (some r)) :
    (∀ f, fc = some f → r.candidates = some (resolved ∩ f)) ∧
    (fc = none → r.candidates = some resolved) ∧
    (∀ c f, r.candidates = some c → fc = some f → c ⊆ resolved ∩ f) ∧
    (d = none → r.bucket_candidates = r.candidates) ∧
    (∀ dc, d = some dc →
      (driveDistinct (dc.distinct (interFiltered resolved fc) ∅) ∅).map some =
        .ok r.bucket_candidates) ∧
    (∀ (dc : DistinctCap) (ids : List Nat), d = some dc →
      dc.distinct (interFiltered resolved fc) ∅ = ids.map Except.ok →
      r.bucket_candidates = some ids.toFinset) := by
  rw [next_fst ctx _ w (initAnswer (some qt) fc) rfl,
    step_exhaustive_eq ctx _ _ w w' qt resolved rfl rfl hres] at h
  simp only [Initial.new, initAnswer] at h
  cases hb : computeBucket d (interFiltered resolved fc) with
  | error e =>
    rw [hb] at h
    exact Except.noConfusion h
  | ok b =>
    rw [hb] at h
    injection h with h
    injection h with h
    subst h
    refine ⟨?_, ?_, ?_, ?_, ?_, ?_⟩
    · intro f hf
      subst hf
      rfl
    · intro hf
      subst hf
      rfl
    · intro c f hc hf
      subst hf
      injection hc with hc
      subst hc
      exact Finset.Subset.refl _
    · intro hd
      subst hd
      injection hb with hb
      exact congrArg some hb.symm
    · intro dc hd
      subst hd
      have hb' : driveDistinct (dc.distinct (interFiltered resolved fc) ∅) ∅ =
          .ok b := hb
      rw [hb']
      rfl
    · intro dc ids hd hids
      subst hd
      have hb' : driveDistinct (dc.distinct (interFiltered resolved fc) ∅) ∅ =
          .ok b := hb
      rw [hids, driveDistinct_map_ok] at hb'
      injection hb' with hb'
      show some b = some ids.toFinset
      rw [← hb', foldl_insert_eq_toFinset]

theorem claim_initial_exhaustive_candidates_witness :
    ctxOk123.resolveQueryTree 0 0 = (.ok ({1, 2, 3} : Bitmap), 0) ∧
    (Initial.next ctxOk123 (Initial.new (some 0) (some {2, 3, 4}) true none) 0).1 =
      .ok (some { query_tree := some 0, candidates := some ({2, 3} : Bitmap),
                  filtered_candidates := some {2, 3, 4},
                  bucket_candidates := some ({2, 3} : Bitmap) }) ∧
    ({ query_tree := some 0, candidates := some ({2, 3} : Bitmap),
       filtered_candidates := some {2, 3, 4},
       bucket_candidates := some ({2, 3} : Bitmap) } : CriterionResult).candidates =
      some (({1, 2, 3} : Bitmap) ∩ {2, 3, 4}) ∧
    ({ query_tree := some 0, candidates := some ({2, 3} : Bitmap),
       filtered_candidates := some {2, 3, 4},
       bucket_candidates := some ({2, 3} : Bitmap) } : CriterionResult).bucket_candidates =
      ({ query_tree := some 0, candidates := some ({2, 3} : Bitmap),
         filtered_candidates := some {2, 3, 4},
         bucket_candidates := some ({2, 3} : Bitmap) } : CriterionResult).candidates :=
  ⟨by decide, by decide,
   (claim_initial_exhaustive_candidates ctxOk123 0 (some {2, 3, 4}) none 0 0
      {1, 2, 3} _ (by decide) (by decide)).1 {2, 3, 4} rfl,
   (claim_initial_exhaustive_candidates ctxOk123 0 (some {2, 3, 4}) none 0 0
      {1, 2, 3} _ (by decide) (by decide)).2.2.2.1 rfl⟩

/-- C3: the claimed contract is that the `max_proximity` setter clamps
its argument down to at most 7.  The code stores `value.max(7)`, which
raises low values to 7 and passes values above 7 through unchanged:
at input 10 the stored bound is 10 (not clamped down to 7), and at
input 3 the stored bound becomes 7 (not kept at 3), contradicting the
setter's own documentation. -/
theorem claim_max_proximity_clamp_failing :
    (PrefixWordPairsProximityDocids.new.setMaxProximity 10).max_proximity = 10 ∧
    ¬ (PrefixWordPairsProximityDocids.new.setMaxProximity 10).max_proximity ≤ 7 ∧
    (PrefixWordPairsProximityDocids.new.setMaxProximity 3).max_proximity = 7 ∧
    (PrefixWordPairsProximityDocids.new.setMaxProximity 3).max_proximity ≠ 3 := by
  decide

/-- C8: when an entry with exactly the target key exists but the CBO
merge of the old and new values fails, `insert_into_database` returns
the internal indexing error naming the `"get-put-merge"` operation, and
produces no updated store. -/
theorem claim_merge_insert_failure (store : Store) (k : Key) (v old : Value)
    (hs : sortedStore store) (hget : dbGet store k = some old)
    (hm : mergeCboPair old v = none) :
    insert_into_database store k v =
      .error (.indexingMergingKeys "get-put-merge") ∧
    ∀ s', insert_into_database store k v ≠ .ok s' := by
  have h1 := insert_error_of_merge_none v hs hget hm
  refine ⟨h1, ?_⟩
  intro s' hc
  rw [h1] at hc
  exact Except.noConfusion hc

theorem claim_merge_insert_failure_witness :
    sortedStore [([0], Value.corrupt 0)] ∧
    dbGet [([0], Value.corrupt 0)] [0] = some (.corrupt 0) ∧
    mergeCboPair (.corrupt 0) (.bitmap {1}) = none ∧
    insert_into_database [([0], Value.corrupt 0)] [0] (.bitmap {1}) =
      .error (.indexingMergingKeys "get-put-merge") ∧
    insert_into_database [([0], Value.corrupt 0)] [0] (.bitmap {1}) ≠ .ok [] :=
  ⟨by decide, rfl, rfl,
   (claim_merge_insert_failure [([0], Value.corrupt 0)] [0] (.bitmap {1})
      (.corrupt 0) (by decide) rfl rfl).1,
   (claim_merge_insert_failure [([0], Value.corrupt 0)] [0] (.bitmap {1})
      (.corrupt 0) (by decide) rfl rfl).2 []⟩

/-- C5: one `insert_into_database` call on a sorted store leaves, at
exactly the target key, the CBO merge of the old and new values when an
entry with exactly that key existed, and the new value as a fresh entry
when none did (even when entries exist whose keys strictly extend the
target key); no other key's value changes. -/
theorem claim_merge_insert_point_spec (store : Store) (k : Key) (v : Value)
    (hs : sortedStore store) :
    (∀ old m, dbGet store k = some old → mergeCboPair old v = some m →
      insert_into_database store k v = .ok (dbPut store k m) ∧
      dbGet (dbPut store k m) k = some m) ∧
    (dbGet store k = none →
      insert_into_database store k v = .ok (dbPut store k v) ∧
      dbGet (dbPut store k v) k = some v) ∧
    (∀ s' k', insert_into_database store k v = .ok s' → k' ≠ k →
      dbGet s' k' = dbGet store k') := by
  refine ⟨?_, ?_, ?_⟩
  · intro old m hget hm
    exact ⟨insert_eq_put_of_present v hs hget hm, dbGet_dbPut_self store k m⟩
  · intro hget
    exact ⟨insert_eq_put_of_absent v hget, dbGet_dbPut_self store k v⟩
  · intro s' k' hok hk'
    exact insert_ok_frame hs hok k' hk'

theorem claim_merge_insert_point_spec_witness :
    sortedStore [([1, 2], Value.bitmap {5})] ∧
    dbGet [([1, 2], Value.bitmap {5})] [1] = none ∧
    (insert_into_database [([1, 2], Value.bitmap {5})] [1] (.bitmap {9}) =
        .ok (dbPut [([1, 2], Value.bitmap {5})] [1] (.bitmap {9})) ∧
      dbGet (dbPut [([1, 2], Value.bitmap {5})] [1] (.bitmap {9})) [1] =
        some (.bitmap {9})) ∧
    dbGet (dbPut [([1, 2], Value.bitmap {5})] [1] (.bitmap {9})) [1, 2] =
      dbGet [([1, 2], Value.bitmap {5})] [1, 2] :=
  ⟨by decide, rfl,
   (claim_merge_insert_point_spec [([1, 2], Value.bitmap {5})] [1]
      (.bitmap {9}) (by decide)).2.1 rfl,
   (claim_merge_insert_point_spec [([1, 2], Value.bitmap {5})] [1]
      (.bitmap {9}) (by decide)).2.2 _ [1, 2] (by decide) (by decide)⟩

/-- Starting from a key that is absent, a non-empty insertion sequence
of bitmaps under that key succeeds and stores their union there. -/
theorem insertSeq_from_absent {store : Store} {k : Key}
    (sets : List (Finset Nat)) (hs : sortedStore store)
    (habsent : dbGet store k = none) (hne : sets ≠ []) :
    (insertSeq store k (sets.map Value.bitmap)).map (fun s' => dbGet s' k) =
      .ok (some (.bitmap (listUnion sets))) := by
  obtain ⟨t, rest, rfl⟩ := List.exists_cons_of_ne_nil hne
  simp only [List.map_cons, insertSeq,
    insert_eq_put_of_absent (Value.bitmap t) habsent]
  obtain ⟨s', hrun, hsort', hget', hframe'⟩ :=
    insertSeq_bitmap_acc rest (dbPut store k (.bitmap t)) k t
      (sortedStore_dbPut k _ hs) (dbGet_dbPut_self store k _)
  rw [hrun]
  show Except.ok (dbGet s' k) = _
  rw [hget']
  rfl

/-- C4: inserting serialized bitmaps `v1..vn` (n ≥ 1) under one key
into a store with no entry at that key leaves, at that key, the bitmap
union of all of them, and the stored final value is the same for every
permutation of the insertion order. -/
theorem claim_merge_insert_union_order_independent (store : Store) (k : Key)
    (sets : List (Finset Nat)) (hs : sortedStore store)
    (habsent : dbGet store k = none) (hne : sets ≠ []) :
    (insertSeq store k (sets.map Value.bitmap)).map (fun s' => dbGet s' k) =
      .ok (some (.bitmap (listUnion sets))) ∧
    ∀ sets' : List (Finset Nat), sets.Perm sets' →
      (insertSeq store k (sets'.map Value.bitmap)).map (fun s' => dbGet s' k) =
        .ok (some (.bitmap (listUnion sets))) := by
  refine ⟨insertSeq_from_absent sets hs habsent hne, ?_⟩
  intro sets' hperm
  have hne' : sets' ≠ [] := by
    intro hc
    subst hc
    exact hne hperm.eq_nil
  rw [insertSeq_from_absent sets' hs habsent hne', listUnion_perm hperm]

theorem claim_merge_insert_union_order_independent_witness :
    (insertSeq [] [0] ([{1, 2}, {2, 3}].map Value.bitmap)).map
        (fun s' => dbGet s' [0]) =
      .ok (some (.bitmap (listUnion [{1, 2}, {2, 3}]))) ∧
    (insertSeq [] [0] ([{2, 3}, {1, 2}].map Value.bitmap)).map
        (fun s' => dbGet s' [0]) =
      .ok (some (.bitmap (listUnion [{1, 2}, {2, 3}]))) ∧
    listUnion [{1, 2}, {2, 3}] = ({1, 2, 3} : Finset Nat) :=
  ⟨(claim_merge_insert_union_order_independent [] [0] [{1, 2}, {2, 3}]
      (by decide) rfl (by decide)).1,
   (claim_merge_insert_union_order_independent [] [0] [{1, 2}, {2, 3}]
      (by decide) rfl (by decide)).2 [{2, 3}, {1, 2}] (by decide),
   by decide⟩

/-- C6: bulk-loading a key-sorted duplicate-free stream into an empty
database yields exactly the stream in the same sorted order; into a
non-empty database with keys disjoint from the existing ones, it
yields exactly the union of the prior entries and the stream's
entries. -/
theorem claim_bulk_load_spec (store : Store) (stream : List (Key × Value))
    (hsorted : List.Pairwise (fun e₁ e₂ => keyLt e₁.1 e₂.1 = true) stream) :
    (store = [] →
      write_into_lmdb_database_without_merging store stream = stream ∧
      sortedStore (write_into_lmdb_database_without_merging store stream)) ∧
    (store ≠ [] → (∀ e ∈ stream, dbGet store e.1 = none) →
      ∀ (k : Key) (v : Value),
        dbGet (write_into_lmdb_database_without_merging store stream) k = some v ↔
          ((k, v) ∈ stream ∨ dbGet store k = some v)) := by
  have hstream_nodup : (stream.map Prod.fst).Nodup := sorted_keys_nodup hsorted
  constructor
  · intro hempty
    subst hempty
    rw [write_into_lmdb_database_without_merging,
      if_pos (show ([] : Store).isEmpty = true from rfl), foldl_append_eq,
      List.nil_append]
    exact ⟨rfl, hsorted⟩
  · intro hne hdisj
    have hie : store.isEmpty = false := by
      cases store with
      | nil => exact absurd rfl hne
      | cons e rest => rfl
    have hchar : ∀ k : Key,
        dbGet (write_into_lmdb_database_without_merging store stream) k =
          match stream.find? (fun e => e.1 = k) with
          | some e => some e.2
          | none => dbGet store k := by
      intro k
      rw [write_into_lmdb_database_without_merging, hie]
      rw [if_neg Bool.false_ne_true]
      exact dbGet_foldl_put stream store k hstream_nodup
    intro k v
    rw [hchar k]
    constructor
    · intro hv
      cases hf : stream.find? (fun e => e.1 = k) with
      | some e =>
        rw [hf] at hv
        injection hv with hv
        left
        have hmem := List.mem_of_find?_eq_some hf
        have hek : e.1 = k := by simpa using List.find?_some hf
        obtain ⟨ek, ev⟩ := e
        cases hek
        cases hv
        exact hmem
      | none =>
        rw [hf] at hv
        exact Or.inr hv
    · rintro (hmem | hstore)
      · have hget : dbGet stream k = some v :=
          (dbGet_some_iff_mem hstream_nodup).2 hmem
        rw [dbGet] at hget
        cases hf : stream.find? (fun e => e.1 = k) with
        | some e =>
          rw [hf] at hget
          injection hget with hget
          show some e.2 = some v
          exact congrArg some hget
        | none =>
          rw [hf] at hget
          exact Option.noConfusion hget
      · cases hf : stream.find? (fun e => e.1 = k) with
        | some e =>
          exfalso
          have hmem := List.mem_of_find?_eq_some hf
          have hek : e.1 = k := by simpa using List.find?_some hf
          have hd := hdisj e hmem
          rw [hek, hstore] at hd
          exact Option.noConfusion hd
        | none => exact hstore

theorem claim_bulk_load_spec_witness :
    (write_into_lmdb_database_without_merging []
        [([1], Value.bitmap {1}), ([2], Value.bitmap {2})] =
      [([1], Value.bitmap {1}), ([2], Value.bitmap {2})]) ∧
    (dbGet (write_into_lmdb_database_without_merging [([0], Value.bitmap {9})]
        [([1], Value.bitmap {1})]) [1] = some (.bitmap {1}) ↔
      (([1], Value.bitmap {1}) ∈ [([1], Value.bitmap {1})] ∨
        dbGet [([0], Value.bitmap {9})] [1] = some (.bitmap {1}))) :=
  ⟨((claim_bulk_load_spec [] [([1], Value.bitmap {1}), ([2], Value.bitmap {2})]
      (by decide)).1 rfl).1,
   (claim_bulk_load_spec [([0], Value.bitmap {9})] [([1], Value.bitmap {1})]
      (by decide)).2 (by decide) (by decide) [1] (.bitmap {1})⟩

end Milli
